import Mathlib

/-!
Shallow embedding of the `constant_sandbox` dependency-boundary linter
(sources: `src/main.rs`, `src/ruby_box.rs`, `src/parser/mod.rs`) together
with theorems settling the specification claims.

Modelling conventions:
* Rust `PathBuf` values are component lists (`List String`); `Path::parent`
  drops the last component (`None` for the empty path) and
  `Path::starts_with` is component-wise prefix, matching the relative paths
  the tool works with.  `Path::to_str` always succeeds in the model (Lean
  strings are always valid unicode).
* A compiled `regex::Regex` is a `RegexM`: its source string plus its match
  function (`Regex::is_match` searches for a match anywhere in the probe).
  Where the program compiles a literal namespace string the model uses
  `litRegex`, whose matcher is substring search, which is exactly
  `Regex::is_match` for metacharacter-free patterns.
* A compiled `glob::Pattern` is modelled by its match function
  `String → Bool` applied to the `/`-joined file path.
* Rust machine integers that appear (byte offsets, line numbers) stay far
  from overflow and are modelled as `Nat`.
-/

namespace ConstantSandbox

/-! ### String helpers (Rust `str::split("::")`, `Vec::join`, substring search) -/

/-- Component-wise prefix test on character lists (used for substring search,
mirroring how `regex` finds a literal pattern in a haystack). -/
def prefixCh : List Char → List Char → Bool
  | [], _ => true
  | _ :: _, [] => false
  | a :: as, b :: bs => a == b && prefixCh as bs

/-- Substring search: does `pat` occur contiguously inside the haystack? -/
def substrCh (pat : List Char) : List Char → Bool
  | [] => prefixCh pat []
  | c :: rest => prefixCh pat (c :: rest) || substrCh pat rest

/-- Rust `str::split("::")`: split a character list on the two-character
separator `::`, leftmost-first, keeping empty pieces (splitting the empty
string yields one empty piece, as in Rust). -/
def splitNS : List Char → List (List Char)
  | [] => [[]]
  | ':' :: ':' :: rest => [] :: splitNS rest
  | c :: rest =>
    match splitNS rest with
    | [] => [[c]]
    | seg :: segs => (c :: seg) :: segs

/-- Namespace segments of a string: `s.split("::").collect()`. -/
def segsOf (s : String) : List String :=
  (splitNS s.data).map (fun cs => String.mk cs)

/-- Rust `Vec::join(sep)`. -/
def joinSep (sep : String) : List String → String
  | [] => ""
  | [s] => s
  | s :: rest => s ++ sep ++ joinSep sep rest

/-- `Vec::join("::")`, the namespace separator. -/
def joinNS : List String → String := joinSep "::"

/-- `PathBuf::to_str` on a component list (always succeeds in the model). -/
def path_to_str (p : List String) : String := joinSep "/" p

/-- `Path::parent`: drop the last component; `none` for the empty path. -/
def parentDir : List String → Option (List String)
  | [] => none
  | a :: rest => some ((a :: rest).dropLast)

/-! ### Data model (`src/parser/mod.rs` structs) -/

/-- `parser::Definition`: a namespace-introducing declaration site.
Field `ns` is the source's `namespace` field (a Lean keyword). -/
structure Definition where
  ns : String
  file : List String
  line : Nat
  lines : Nat
deriving DecidableEq

/-- `parser::Relation`: a use of a namespace from an enclosing scope.
Field `ns` is the source's `namespace` field, `caller_ns` its
`caller_namespace`. -/
structure Relation where
  ns : String
  file : List String
  line : Nat
  caller_ns : String
deriving DecidableEq

/-- `parser::RubyFile`: one file's extraction output. -/
structure RubyFile where
  definitions : List Definition
  relations : List Relation
deriving DecidableEq

/-! ### Box model (`src/ruby_box.rs`) -/

/-- A compiled `regex::Regex`: its pattern source (`Regex::as_str`) and its
match function (`Regex::is_match`, which searches anywhere in the probe). -/
structure RegexM where
  src : String
  is_match : String → Bool

/-- `ruby_box::RubyBox`: the two ordered pattern lists. -/
structure RubyBox where
  imports : List RegexM
  exports : List RegexM

/-- `ruby_box::ViolationDirection`. -/
inductive ViolationDirection where
  | NonImportedReference
  | NonExportedReference
deriving DecidableEq, BEq

/-- `ruby_box::BoxViolation`. -/
structure BoxViolation where
  dir : ViolationDirection
  rel : Relation
deriving DecidableEq

/-- The characters the regex-engine model treats as metacharacters: a pattern
containing none of them is a literal. -/
def regexMeta (c : Char) : Bool :=
  c == '[' || c == ']' || c == '(' || c == ')' || c == '*' || c == '+' ||
    c == '?' || c == '|' || c == '^' || c == '$' || c == '.'

/-- Is the pattern string free of regex metacharacters? -/
def regexIsLiteralPat (s : String) : Bool := s.data.all (fun c => !regexMeta c)

/-- The regex compiled from a literal pattern string: `is_match` is substring
search, exactly `regex::Regex::is_match` for metacharacter-free patterns. -/
def litRegex (s : String) : RegexM :=
  { src := s, is_match := fun probe => substrCh s.data probe.data }

/-- Modelled from the spec (§4.3, §7): `regex::Regex::new`, the external
regex engine's compiler.  Metacharacter-free patterns compile to literal
substring matchers; a pattern containing a metacharacter fails to compile
(e.g. a lone "[" is rejected by the real engine), which §7 records as fatal
wherever the program unwraps the result. -/
def regex_new (s : String) : Option RegexM :=
  if regexIsLiteralPat s then some (litRegex s) else none

/-! ### Enforcement engine (`ruby_box::enforce_box`, `ruby_box::matches_to_self`) -/

/-- `ruby_box::matches_to_self`: the multi-level self-reference heuristic.
Each candidate re-splits the caller namespace, pops 0–3 trailing segments
(`Vec::pop` on an empty vector is a no-op, as is `List.dropLast`), pushes the
referenced token and re-joins. -/
def matches_to_self (rel : Relation) (defs : List Definition) : Bool :=
  let ns1 := joinNS ((segsOf rel.caller_ns).dropLast ++ [rel.ns])
  let ns2 := joinNS (segsOf rel.caller_ns ++ [rel.ns])
  let ns3 := joinNS ((segsOf rel.caller_ns).dropLast.dropLast ++ [rel.ns])
  let ns4 := joinNS ((segsOf rel.caller_ns).dropLast.dropLast.dropLast ++ [rel.ns])
  defs.any (fun d =>
    d.ns == rel.ns || d.ns == ns1 || d.ns == ns2 || d.ns == ns3 || d.ns == ns4)

/-- `ruby_box::enforce_box`: classify every `Relation` against one box.
Ignore globs are modelled by their match functions, applied to the
`/`-joined file path (`PathBuf::to_str` always succeeds in the model). -/
def enforce_box (box_path : List String) (ruby_box : RubyBox)
    (defs : List Definition) (rels : List Relation)
    (ignores : List (String → Bool)) : List BoxViolation :=
  match parentDir box_path with
  | none => []
  | some box_dir =>
    let defs_in_box := defs.filter (fun d => box_dir.isPrefixOf d.file)
    let rels_not_exported :=
      (rels.filter (fun r => ignores.all (fun g => !g (path_to_str r.file)))).filter
        (fun r => defs_in_box.any (fun d => d.ns == r.ns) &&
          !(ruby_box.exports.any (fun b => b.is_match r.ns)))
    let rels_inside_box_not_imported :=
      rels.filter (fun r => box_dir.isPrefixOf r.file &&
        !(ruby_box.imports.any (fun b => b.is_match r.ns) ||
          matches_to_self r defs_in_box))
    rels_not_exported.map (fun r => ⟨.NonExportedReference, r⟩) ++
      rels_inside_box_not_imported.map (fun r => ⟨.NonImportedReference, r⟩)

/-! ### Box generator (`main::command_init`, the derivation step) -/

/-- Insert into a lexicographically sorted string list. -/
def insertSorted (s : String) : List String → List String
  | [] => [s]
  | t :: rest => if s ≤ t then s :: t :: rest else t :: insertSorted s rest

/-- Lexicographic sort of the candidate namespace strings (`Vec::sort`). -/
def sortStrings : List String → List String
  | [] => []
  | s :: rest => insertSorted s (sortStrings rest)

/-- The generator core of `main::command_init`: run the engine with an empty
`RubyBox`, collect referenced namespaces of import-direction violations into
the import candidate set and of export-direction violations into the export
candidate set (the `HashSet` is modelled by `List.dedup`), sort each set,
and compile each entry as a literal pattern (`Regex::new` on a namespace). -/
def derive_box (box_path : List String) (defs : List Definition)
    (rels : List Relation) (ignores : List (String → Bool)) : RubyBox :=
  let errors := enforce_box box_path ⟨[], []⟩ defs rels ignores
  let importNames :=
    (errors.filter (fun v => v.dir == ViolationDirection.NonImportedReference)).map
      (fun v => v.rel.ns)
  let exportNames :=
    (errors.filter (fun v => v.dir == ViolationDirection.NonExportedReference)).map
      (fun v => v.rel.ns)
  { imports := (sortStrings importNames.dedup).map litRegex,
    exports := (sortStrings exportNames.dedup).map litRegex }

/-! ### Box document parsing and serialization (`ruby_box::parse`, `regex_array`)

The external `serde_yaml` scanner is modelled at the document level: a text
that scans as YAML is an abstract `Yaml` value, a text that does not scan is
`none`. -/

/-- A YAML document value (the fragment the box document uses). -/
inductive Yaml where
  | str (s : String)
  | seq (items : List Yaml)
  | map (entries : List (String × Yaml))

/-- First value bound to a key in a YAML mapping. -/
def lookupKey : List (String × Yaml) → String → Option Yaml
  | [], _ => none
  | (k, v) :: rest, key => if k == key then some v else lookupKey rest key

/-- The element loop of `Vec<String>::deserialize`: every element must be a
string. -/
def strListOf : List Yaml → Option (List String)
  | [] => some []
  | .str s :: rest => (strListOf rest).map (fun ss => s :: ss)
  | _ => none

/-- `Vec<String>::deserialize`: the value must be a sequence of strings. -/
def strSeq : Yaml → Option (List String)
  | .seq items => strListOf items
  | _ => none

/-- Outcome of compiling a list of pattern strings with
`Regex::new(..).unwrap()` (`regex_array::deserialize`): the first pattern
that fails to compile panics. -/
inductive CompileOutcome where
  | panicked (pat : String)
  | compiled (regs : List RegexM)

/-- `regex_array::deserialize`'s compile loop over the string list. -/
def compileAll : List String → CompileOutcome
  | [] => .compiled []
  | p :: rest =>
    match regex_new p with
    | none => .panicked p
    | some r =>
      match compileAll rest with
      | .panicked q => .panicked q
      | .compiled rs => .compiled (r :: rs)

/-- Outcome of `serde_yaml::from_str::<RubyBox>`: a deserialization error
(recoverable), a panic from `Regex::new(..).unwrap()` on an invalid pattern
(aborts the run), or a deserialized box. -/
inductive SerdeOutcome where
  | panicked (pat : String)
  | failed
  | ok (b : RubyBox)

/-- Modelled from the spec (§4.3, §6): `serde_yaml::from_str::<RubyBox>`.
A document that does not scan as YAML, or whose shape does not expose the
two named string lists `imports` and `exports`, is a deserialize error;
otherwise `regex_array::deserialize` compiles each pattern string,
panicking on the first invalid one. -/
def from_str (doc : Option Yaml) : SerdeOutcome :=
  match doc with
  | none => .failed
  | some y =>
    match y with
    | .map entries =>
      match lookupKey entries "imports", lookupKey entries "exports" with
      | some yi, some ye =>
        match strSeq yi, strSeq ye with
        | some si, some se =>
          match compileAll si with
          | .panicked p => .panicked p
          | .compiled ri =>
            match compileAll se with
            | .panicked p => .panicked p
            | .compiled re => .ok ⟨ri, re⟩
        | _, _ => .failed
      | _, _ => .failed
    | _ => .failed

/-- Outcome of `ruby_box::parse`: the function's `Result` is always `Ok`
(an error from deserialization is replaced by the empty box), but a panic
inside deserialization still aborts the run. -/
inductive ParseOutcome where
  | panicked (pat : String)
  | ok (b : RubyBox)
deriving Inhabited

/-- `ruby_box::parse`: lenient parse of a box document. -/
def parse (doc : Option Yaml) : ParseOutcome :=
  match from_str doc with
  | .panicked p => .panicked p
  | .failed => .ok ⟨[], []⟩
  | .ok b => .ok b

/-- `regex_array::serialize` + `serde_yaml::to_string`: re-emit the literal
pattern strings (`Regex::as_str`) under the two field names, in struct
declaration order. -/
def to_yaml (b : RubyBox) : Yaml :=
  .map [("imports", .seq (b.imports.map (fun r => .str r.src))),
        ("exports", .seq (b.exports.map (fun r => .str r.src)))]

/-! ### Syntax tree and extraction visitor (`src/parser/mod.rs`) -/

/-- The `lib_ruby_parser` node kinds the visitor dispatches on
(`Module`, `Class`, `Casgn`, `Const`), plus the generic "recurse into
children" default for every other node kind. Position payloads carry the
fields the visitor reads: `kwPos`/`endPos` are `keyword_l.begin_pos` and
`end_l.end_pos`, `namePos`/`nameSize` are `name_l.begin_pos` and
`name_l.size()`, and `exprLine` is the 0-based line that
`expression_l.expand_to_line` reports for the reference site. -/
inductive Node where
  | module (kwPos endPos : Nat) (name : Node) (body : Option Node)
  | cls (kwPos endPos : Nat) (name : Node) (superclass : Option Node)
      (body : Option Node)
  | casgn (scope : Option Node) (name : String) (namePos nameSize : Nat)
      (value : Option Node)
  | const (scope : Option Node) (name : String) (exprLine : Nat)
  | other (children : List Node)

/-- Extraction failure (`NotAConstError`): a name node assumed to be a
constant was not; the program unwraps this, aborting the run. -/
inductive ExtractError where
  | notAConst (kind : String)
deriving DecidableEq

/-- `Node::str_type` for the node kinds of the model. -/
def str_type : Node → String
  | .module .. => "Module"
  | .cls .. => "Class"
  | .casgn .. => "Casgn"
  | .const .. => "Const"
  | .other _ => "Other"

/-- `parser::extract_name`: the name node must be a constant. -/
def extract_name : Node → Except ExtractError String
  | .const _ n _ => .ok n
  | n => .error (.notAConst (str_type n))

/-- `parser::namespace`: push the extracted name onto a copy of the parent
stack and join. (`namespace` is a Lean keyword, hence the `Of` suffix.) -/
def namespaceOf (name : Node) (parents : List String) :
    Except ExtractError String := do
  let n ← extract_name name
  pure (joinNS (parents ++ [n]))

/-- The `while let` scope-qualifier walk shared by `on_casgn` and `on_const`:
collect constant names inner-to-outer, stopping at the first non-constant
scope node. -/
def constChainN : Node → List String
  | .const sc nm _ => nm :: (match sc with | some s => constChainN s | none => [])
  | _ => []
termination_by structural n => n

/-- The qualifier walk entered from an optional scope field. -/
def constChain : Option Node → List String
  | some n => constChainN n
  | none => []

/-- Modelled from the spec (§4.1, §9): `constants::RUBY`, the fixed deny-set
of host-language built-in constant names (`src/parser/constants.rs` is not
among the sources).  Represented by a small list of Ruby built-ins; no claim
depends on its exact contents. -/
def RUBY : List String :=
  ["Array", "Hash", "String", "Integer", "Float", "Symbol", "Kernel",
   "Object", "Class", "Module", "NilClass", "TrueClass", "FalseClass"]

mutual

/-- The `ExtractConsts` visitor (`Visitor::visit` with the four overridden
handlers): pre-order walk returning the emitted definitions and relations in
traversal order.  `on_module` emits its definition, pushes its name, visits
the body, pops; `on_class` additionally visits the superclass (with the
class's own name already pushed); `on_casgn` emits a definition from the
unreversed qualifier chain and does not descend (its value is skipped);
`on_const` emits a relation from the reversed qualifier chain unless the
full token is in the deny-set, and never descends. -/
def visit (file : List String) (parents : List String) :
    Node → Except ExtractError (List Definition × List Relation)
  | .module kw en name body => do
    let ns ← namespaceOf name parents
    let nm ← extract_name name
    let (ds, rs) ← visitOpt file (parents ++ [nm]) body
    pure (⟨ns, file, kw, en⟩ :: ds, rs)
  | .cls kw en name sup body => do
    let ns ← namespaceOf name parents
    let nm ← extract_name name
    let (ds1, rs1) ← visitOpt file (parents ++ [nm]) sup
    let (ds2, rs2) ← visitOpt file (parents ++ [nm]) body
    pure (⟨ns, file, kw, en⟩ :: (ds1 ++ ds2), rs1 ++ rs2)
  | .casgn scope nm npos nsize _value =>
    pure ([⟨joinNS (parents ++ constChain scope ++ [nm]), file, npos, nsize⟩], [])
  | .const scope nm eline =>
    let full := joinNS ((constChain scope).reverse ++ [nm])
    if RUBY.contains full then pure ([], [])
    else pure ([], [⟨full, file, eline + 1, joinNS parents⟩])
  | .other children => visitList file parents children
termination_by structural n => n

/-- `Visitor::maybe_visit`. -/
def visitOpt (file : List String) (parents : List String) :
    Option Node → Except ExtractError (List Definition × List Relation)
  | none => pure ([], [])
  | some n => visit file parents n
termination_by structural n => n

/-- Generic recursion into a node's children, in order. -/
def visitList (file : List String) (parents : List String) :
    List Node → Except ExtractError (List Definition × List Relation)
  | [] => pure ([], [])
  | c :: rest => do
    let (ds, rs) ← visit file parents c
    let (ds2, rs2) ← visitList file parents rest
    pure (ds ++ ds2, rs ++ rs2)
termination_by structural n => n

end

/-- `parser::ruby_file`: run the visitor over the Adapter's output for one
file.  The Adapter (`lib_ruby_parser`) is external; its result is the
optional syntax tree `ParserResult::ast`.  When there is no tree the
function returns an empty `RubyFile`. -/
def ruby_file (path : List String) (ast : Option Node) :
    Except ExtractError RubyFile :=
  match ast with
  | none => .ok ⟨[], []⟩
  | some n => do
    let (ds, rs) ← visit path [] n
    .ok ⟨ds, rs⟩

/-- The merge step of `main::parse_ruby`: per-file results are appended into
the corpus in the order the collector receives them; the worker pool makes
that order an arbitrary permutation of the discovered files, which the
determinism theorem quantifies over. -/
def corpusOf : List (List String × Option Node) →
    Except ExtractError (List Definition × List Relation)
  | [] => .ok ([], [])
  | f :: rest => do
    let rf ← ruby_file f.1 f.2
    let (ds, rs) ← corpusOf rest
    .ok (rf.definitions ++ ds, rf.relations ++ rs)

/-! ### Spec-side definitions (for refinement-style claims) -/

/-- The four self-match candidates exactly as the spec words them: caller
segments `C` with its last 1 segment replaced by the referenced token, `C`
with the token appended, and `C` with its last 2 resp. 3 segments
replaced. -/
def spec_candidates (r : Relation) : List String :=
  [joinNS ((segsOf r.caller_ns).dropLast ++ [r.ns]),
   joinNS (segsOf r.caller_ns ++ [r.ns]),
   joinNS ((segsOf r.caller_ns).dropLast.dropLast ++ [r.ns]),
   joinNS ((segsOf r.caller_ns).dropLast.dropLast.dropLast ++ [r.ns])]

/-- The spec's self-match test, following its words: the reference is
self-contained if the referenced token itself equals some Definition's
namespace, or one of the four candidates does. -/
def SpecSelfContained (r : Relation) (defs : List Definition) : Prop :=
  (∃ d ∈ defs, d.ns = r.ns) ∨ ∃ d ∈ defs, ∃ c ∈ spec_candidates r, d.ns = c

/-- Which module/class definitions a node encloses: `Within n E m` says the
visitor reaches `m` from `n` through module bodies, class superclasses and
bodies, and generic children, pushing the chain `E` of enclosing names. -/
inductive Within : Node → List String → Node → Prop where
  | refl (n : Node) : Within n [] n
  | module_body {b m : Node} {E : List String} {kw en : Nat} {name : Node}
      {nm : String} (hname : extract_name name = .ok nm)
      (h : Within b E m) : Within (.module kw en name (some b)) (nm :: E) m
  | cls_super {s m : Node} {E : List String} {kw en : Nat} {name : Node}
      {nm : String} {body : Option Node} (hname : extract_name name = .ok nm)
      (h : Within s E m) : Within (.cls kw en name (some s) body) (nm :: E) m
  | cls_body {b m : Node} {E : List String} {kw en : Nat} {name : Node}
      {nm : String} {sup : Option Node} (hname : extract_name name = .ok nm)
      (h : Within b E m) : Within (.cls kw en name sup (some b)) (nm :: E) m
  | other_child {c m : Node} {E : List String} {children : List Node}
      (hc : c ∈ children) (h : Within c E m) : Within (.other children) E m

/-- The keyword position, extent and name node of a namespace-defining
(module/class) node. -/
def defNodeInfo : Node → Option (Nat × Nat × Node)
  | .module kw en name _ => some (kw, en, name)
  | .cls kw en name _ _ => some (kw, en, name)
  | _ => none

/-! ### Example inputs used by witnesses and counterexamples -/

/-- A depth-4 caller referencing the bare token `E`. -/
def depth4Rel : Relation := ⟨"E", ["lib", "mod", "x.rb"], 0, "A::B::C::D"⟩

/-- A top-level in-box Definition whose namespace is exactly the token `E`. -/
def topLevelE : Definition := ⟨"E", ["lib", "mod", "d.rb"], 0, 0⟩

/-- The spec's export scenario: Definition `A` inside `lib/mod`, referenced
from `lib/mod2`. -/
def exportScenarioDef : Definition := ⟨"A", ["lib", "mod", "mod.rb"], 0, 0⟩

/-- The offending Reference of the export scenario. -/
def exportScenarioRel : Relation := ⟨"A", ["lib", "mod2", "mod.rb"], 0, "B"⟩

/-- A two-module tree `module A; module B; end; end` (with the inner module
wrapped in a generic child list, as a parsed body is). -/
def nestedTree : Node :=
  .module 0 10 (.const none "A" 0)
    (some (.other [.module 2 8 (.const none "B" 1) none]))

/-- The inner module node of `nestedTree`. -/
def innerModule : Node := .module 2 8 (.const none "B" 1) none

/-- A one-module file used by the determinism witness. -/
def fileA : List String × Option Node :=
  (["a.rb"], some (.module 0 1 (.const none "A" 0) none))

/-- A second one-module file used by the determinism witness. -/
def fileB : List String × Option Node :=
  (["b.rb"], some (.module 0 1 (.const none "B" 0) none))

/-! ## Helper lemmas -/

theorem prefixCh_refl (l : List Char) : prefixCh l l = true := by
  induction l with
  | nil => rfl
  | cons c rest ih => simp [prefixCh, ih]

theorem substrCh_self (l : List Char) : substrCh l l = true := by
  cases l with
  | nil => rfl
  | cons c rest => simp [substrCh, prefixCh_refl]

theorem litRegex_matches_self (s : String) : (litRegex s).is_match s = true :=
  substrCh_self s.data

theorem mem_insertSorted (a s : String) (l : List String) :
    a ∈ insertSorted s l ↔ a = s ∨ a ∈ l := by
  induction l with
  | nil => simp [insertSorted]
  | cons t rest ih =>
    by_cases h : s ≤ t
    · simp [insertSorted, h]
    · simp [insertSorted, h, ih]
      tauto

theorem mem_sortStrings (a : String) (l : List String) :
    a ∈ sortStrings l ↔ a ∈ l := by
  induction l with
  | nil => simp [sortStrings]
  | cons s rest ih => simp [sortStrings, mem_insertSorted, ih]

/-- Any namespace string has itself among the matches of its literal
pattern, hence a generated pattern list covers every name it was built
from. -/
theorem any_litRegex_of_mem (names : List String) (s : String) (h : s ∈ names) :
    (names.map litRegex).any (fun b => b.is_match s) = true := by
  simp only [List.any_eq_true, List.mem_map]
  exact ⟨litRegex s, ⟨s, h, rfl⟩, litRegex_matches_self s⟩

/-- If some Definition's namespace equals the referenced token, the
self-match test succeeds (its first disjunct). -/
theorem matches_to_self_of_any_eq (r : Relation) (defs : List Definition)
    (h : defs.any (fun d => d.ns == r.ns) = true) :
    matches_to_self r defs = true := by
  simp only [List.any_eq_true, beq_iff_eq] at h
  obtain ⟨d, hd, he⟩ := h
  simp only [matches_to_self, List.any_eq_true, beq_iff_eq, Bool.or_eq_true]
  exact ⟨d, hd, by tauto⟩

/-- Membership characterization for export-direction violations. -/
theorem mem_enforce_box_export (bp box_dir : List String) (box : RubyBox)
    (defs : List Definition) (rels : List Relation)
    (igns : List (String → Bool)) (r : Relation)
    (hP : parentDir bp = some box_dir) :
    ((⟨.NonExportedReference, r⟩ : BoxViolation) ∈
        enforce_box bp box defs rels igns) ↔
      (r ∈ rels ∧ igns.all (fun g => !g (path_to_str r.file)) = true ∧
        (defs.filter (fun d => box_dir.isPrefixOf d.file)).any
          (fun d => d.ns == r.ns) = true ∧
        box.exports.any (fun b => b.is_match r.ns) = false) := by
  unfold enforce_box
  rw [hP]
  simp only [List.mem_append, List.mem_map, List.mem_filter, BoxViolation.mk.injEq,
    Bool.and_eq_true, Bool.not_eq_true']
  constructor
  · rintro (⟨r', ⟨⟨hr, hig⟩, hany, hexp⟩, hdir, hrr⟩ | ⟨r', _, hdir, _⟩)
    · subst hrr; exact ⟨hr, hig, hany, hexp⟩
    · cases hdir
  · rintro ⟨hr, hig, hany, hexp⟩
    exact Or.inl ⟨r, ⟨⟨hr, hig⟩, hany, hexp⟩, trivial, rfl⟩

/-- Membership characterization for import-direction violations. -/
theorem mem_enforce_box_import (bp box_dir : List String) (box : RubyBox)
    (defs : List Definition) (rels : List Relation)
    (igns : List (String → Bool)) (r : Relation)
    (hP : parentDir bp = some box_dir) :
    ((⟨.NonImportedReference, r⟩ : BoxViolation) ∈
        enforce_box bp box defs rels igns) ↔
      (r ∈ rels ∧ box_dir.isPrefixOf r.file = true ∧
        box.imports.any (fun b => b.is_match r.ns) = false ∧
        matches_to_self r (defs.filter (fun d => box_dir.isPrefixOf d.file)) =
          false) := by
  unfold enforce_box
  rw [hP]
  simp only [List.mem_append, List.mem_map, List.mem_filter, BoxViolation.mk.injEq,
    Bool.and_eq_true, Bool.not_eq_true', Bool.or_eq_false_iff]
  constructor
  · rintro (⟨r', _, hdir, _⟩ | ⟨r', ⟨hr, hin, himp, hself⟩, hdir, hrr⟩)
    · cases hdir
    · subst hrr; exact ⟨hr, hin, himp, hself⟩
  · rintro ⟨hr, hin, himp, hself⟩
    exact Or.inr ⟨r, ⟨hr, hin, himp, hself⟩, trivial, rfl⟩

/-- An export-direction and an import-direction violation can never share
one Reference: the export check requires an in-box Definition with the
referenced namespace, which is exactly the self-match test's first
disjunct, so the import check exempts the Reference. -/
theorem enforce_box_not_both (bp : List String) (box : RubyBox)
    (defs : List Definition) (rels : List Relation)
    (igns : List (String → Bool)) (r : Relation)
    (he : (⟨.NonExportedReference, r⟩ : BoxViolation) ∈
      enforce_box bp box defs rels igns)
    (hi : (⟨.NonImportedReference, r⟩ : BoxViolation) ∈
      enforce_box bp box defs rels igns) : False := by
  cases hP : parentDir bp with
  | none =>
    rw [enforce_box, hP] at he
    cases he
  | some box_dir =>
    have h1 := (mem_enforce_box_export bp box_dir box defs rels igns r hP).mp he
    have h2 := (mem_enforce_box_import bp box_dir box defs rels igns r hP).mp hi
    have := matches_to_self_of_any_eq r
      (defs.filter (fun d => box_dir.isPrefixOf d.file)) h1.2.2.1
    rw [h2.2.2.2] at this
    cases this

end ConstantSandbox

namespace ConstantSandbox

/-! ## Claim theorems -/

/-- C1 (counterexample). The claim's particular case is false on the code:
with caller depth 4 (`A::B::C::D`) and only the top-level Definition `E`
(equal to the referenced token) existing, the spec's scenario says the
Reference is *not* exempt, yet `matches_to_self` exempts it via its first
disjunct, which compares the referenced token directly with every
Definition's namespace. -/
theorem matches_to_self_depth4_toplevel_is_exempt :
    matches_to_self depth4Rel [topLevelE] = true := by decide

/-- C1 (amended). The self-match test exempts a Reference exactly when the
referenced token itself equals some in-box Definition's namespace or one of
the spec's four candidates (last 1 segment replaced, token appended, last 2
replaced, last 3 replaced) does; in the particular scenario of caller depth
4 with only a top-level Definition equal to the token, the Reference *is*
exempt through the direct-equality disjunct (only the four candidate forms
are capped at 3 dropped segments). -/
theorem matches_to_self_iff_spec_self_contained (r : Relation)
    (defs : List Definition) :
    matches_to_self r defs = true ↔ SpecSelfContained r defs := by
  simp only [matches_to_self, SpecSelfContained, spec_candidates,
    List.any_eq_true, beq_iff_eq, Bool.or_eq_true, List.mem_cons,
    List.mem_singleton, List.not_mem_nil]
  constructor
  · rintro ⟨d, hd, h⟩
    rcases h with ((((h | h) | h) | h) | h)
    · exact Or.inl ⟨d, hd, h⟩
    · exact Or.inr ⟨d, hd, _, Or.inl rfl, h⟩
    · exact Or.inr ⟨d, hd, _, Or.inr (Or.inl rfl), h⟩
    · exact Or.inr ⟨d, hd, _, Or.inr (Or.inr (Or.inl rfl)), h⟩
    · exact Or.inr ⟨d, hd, _, Or.inr (Or.inr (Or.inr (Or.inl rfl))), h⟩
  · rintro (⟨d, hd, h⟩ | ⟨d, hd, c, hc, h⟩)
    · exact ⟨d, hd, by tauto⟩
    · rcases hc with rfl | rfl | rfl | rfl | hc
      · exact ⟨d, hd, by tauto⟩
      · exact ⟨d, hd, by tauto⟩
      · exact ⟨d, hd, by tauto⟩
      · exact ⟨d, hd, by tauto⟩
      · cases hc

/-- C3 (counterexample, as the claim's negation). The claim asserts some
input makes one Reference appear under both violation directions; no input
does. -/
theorem no_reference_under_both_directions :
    ¬ ∃ (bp : List String) (box : RubyBox) (defs : List Definition)
        (rels : List Relation) (igns : List (String → Bool)) (r : Relation),
        (⟨.NonExportedReference, r⟩ : BoxViolation) ∈
            enforce_box bp box defs rels igns ∧
          (⟨.NonImportedReference, r⟩ : BoxViolation) ∈
            enforce_box bp box defs rels igns := by
  rintro ⟨bp, box, defs, rels, igns, r, he, hi⟩
  exact enforce_box_not_both bp box defs rels igns r he hi

/-- C3 (amended). In one enforcement pass a Reference reported as a
NonExportedReference violation is never also reported as a
NonImportedReference violation: the export check requires an in-box
Definition carrying the referenced namespace, which makes the self-match
test's first disjunct succeed and exempts the Reference from the import
check. (Violations remain unordered and undeduplicated within each
direction.) -/
theorem export_violation_excludes_import_violation (bp : List String)
    (box : RubyBox) (defs : List Definition) (rels : List Relation)
    (igns : List (String → Bool)) (r : Relation)
    (he : (⟨.NonExportedReference, r⟩ : BoxViolation) ∈
      enforce_box bp box defs rels igns) :
    (⟨.NonImportedReference, r⟩ : BoxViolation) ∉
      enforce_box bp box defs rels igns :=
  fun hi => enforce_box_not_both bp box defs rels igns r he hi

/-- C3 witness: the spec's export scenario realizes the hypothesis. -/
theorem export_violation_excludes_import_violation_witness :
    ((⟨.NonExportedReference, exportScenarioRel⟩ : BoxViolation) ∈
        enforce_box ["lib", "mod", "box.yaml"] ⟨[], []⟩ [exportScenarioDef]
          [exportScenarioRel] []) ∧
      (⟨.NonImportedReference, exportScenarioRel⟩ : BoxViolation) ∉
        enforce_box ["lib", "mod", "box.yaml"] ⟨[], []⟩ [exportScenarioDef]
          [exportScenarioRel] [] :=
  ⟨by decide,
    export_violation_excludes_import_violation ["lib", "mod", "box.yaml"]
      ⟨[], []⟩ [exportScenarioDef] [exportScenarioRel] [] exportScenarioRel
      (by decide)⟩

/-- C4 (counterexample). When the Adapter produces no syntax tree
(`ParserResult::ast` is `None`), extraction does not abort: it returns
successfully with an empty per-file result, contradicting the claim that the
run aborts with an error. -/
theorem ruby_file_no_ast_returns_empty_ok :
    ruby_file ["lib", "a.rb"] none = .ok ⟨[], []⟩ := rfl

/-- C4 (amended). When the front-end Adapter fails to produce a syntax tree
for a file, extraction returns successfully with an empty per-file result
(no definitions, no relations) for that file instead of aborting; only I/O
errors and structural assumption violations (a name node that is not a
constant) abort the run. -/
theorem ruby_file_no_ast_empty_result (path : List String) :
    ruby_file path none = .ok ⟨[], []⟩ := rfl

/-- C5. The ignore-glob list cannot influence the import-direction output:
for any two ignore lists the engine returns exactly the same (identically
ordered, hence same multiset of) NonImportedReference violations — ignore
globs are applied only on the export-direction path. -/
theorem import_violations_independent_of_ignores (bp : List String)
    (box : RubyBox) (defs : List Definition) (rels : List Relation)
    (ig1 ig2 : List (String → Bool)) :
    (enforce_box bp box defs rels ig1).filter
        (fun v => v.dir == ViolationDirection.NonImportedReference) =
      (enforce_box bp box defs rels ig2).filter
        (fun v => v.dir == ViolationDirection.NonImportedReference) := by
  unfold enforce_box
  cases parentDir bp with
  | none => rfl
  | some box_dir =>
    simp only [List.filter_append]
    have hexp : ∀ l : List Relation,
        (l.map (fun r => (⟨.NonExportedReference, r⟩ : BoxViolation))).filter
          (fun v => v.dir == ViolationDirection.NonImportedReference) = [] := by
      intro l
      induction l with
      | nil => rfl
      | cons a t ih =>
        have hb : (ViolationDirection.NonExportedReference ==
            ViolationDirection.NonImportedReference) = false := rfl
        simp [List.filter, hb, ih]
    rw [hexp, hexp]

/-- C6 (counterexample). Parsing can abort the run: a structurally valid
document whose `imports` list contains the pattern "[" (not a valid regex)
makes `regex_array::deserialize` panic on `Regex::new(..).unwrap()`, so
`parse` does not return for this input. -/
theorem parse_panics_on_invalid_pattern :
    parse (some (.map [("imports", .seq [.str "["]),
      ("exports", .seq [])])) = .panicked "[" := rfl

/-- C6 (amended). `parse` never returns an error value, and any document the
deserializer rejects (text that does not scan as YAML, or a YAML value
without the two named string lists) yields the empty Box; but a well-formed
document containing a pattern string that fails regex compilation panics,
aborting the run. -/
theorem parse_recovers_malformed_to_empty_box (doc : Option Yaml)
    (h : from_str doc = .failed) : parse doc = .ok ⟨[], []⟩ := by
  simp [parse, h]

/-- C6 witness: a document that is a bare scalar fails deserialization and
parses to the empty Box. -/
theorem parse_recovers_malformed_to_empty_box_witness :
    from_str (some (.str "junk")) = .failed ∧
      parse (some (.str "junk")) = .ok ⟨[], []⟩ :=
  ⟨rfl, parse_recovers_malformed_to_empty_box (some (.str "junk")) rfl⟩

/-- C10. The export check does not exempt in-box callers: with empty export
patterns and an empty ignore list, every Reference whose referenced
namespace equals some in-box Definition's namespace is reported as a
NonExportedReference violation — the check never looks at where the
Reference itself lives. -/
theorem export_check_applies_to_in_box_callers (bp box_dir : List String)
    (imports : List RegexM) (defs : List Definition) (rels : List Relation)
    (r : Relation) (hP : parentDir bp = some box_dir) (hr : r ∈ rels)
    (hd : (defs.filter (fun d => box_dir.isPrefixOf d.file)).any
      (fun d => d.ns == r.ns) = true) :
    (⟨.NonExportedReference, r⟩ : BoxViolation) ∈
      enforce_box bp ⟨imports, []⟩ defs rels [] :=
  (mem_enforce_box_export bp box_dir ⟨imports, []⟩ defs rels [] r hP).mpr
    ⟨hr, rfl, hd, rfl⟩

/-- C10 witness: an in-box caller referencing the in-box Definition `A`. -/
theorem export_check_applies_to_in_box_callers_witness :
    parentDir ["lib", "mod", "box.yaml"] = some ["lib", "mod"] ∧
      (⟨"A", ["lib", "mod", "use.rb"], 3, "X"⟩ : Relation) ∈
        [(⟨"A", ["lib", "mod", "use.rb"], 3, "X"⟩ : Relation)] ∧
      ([exportScenarioDef].filter
        (fun d => List.isPrefixOf ["lib", "mod"] d.file)).any
          (fun d => d.ns == "A") = true ∧
      (⟨.NonExportedReference, ⟨"A", ["lib", "mod", "use.rb"], 3, "X"⟩⟩ :
          BoxViolation) ∈
        enforce_box ["lib", "mod", "box.yaml"] ⟨[], []⟩ [exportScenarioDef]
          [⟨"A", ["lib", "mod", "use.rb"], 3, "X"⟩] [] :=
  ⟨by decide, by decide, by decide,
    export_check_applies_to_in_box_callers ["lib", "mod", "box.yaml"]
      ["lib", "mod"] [] [exportScenarioDef]
      [⟨"A", ["lib", "mod", "use.rb"], 3, "X"⟩]
      ⟨"A", ["lib", "mod", "use.rb"], 3, "X"⟩ (by decide) (by decide)
      (by decide)⟩

end ConstantSandbox

namespace ConstantSandbox

/-- Unfolding of the generator's import pattern list. -/
theorem derive_box_imports_eq (bp : List String) (defs : List Definition)
    (rels : List Relation) (igns : List (String → Bool)) :
    (derive_box bp defs rels igns).imports =
      (sortStrings (((enforce_box bp ⟨[], []⟩ defs rels igns).filter
        (fun v => v.dir == ViolationDirection.NonImportedReference)).map
          (fun v => v.rel.ns)).dedup).map litRegex := rfl

/-- Unfolding of the generator's export pattern list. -/
theorem derive_box_exports_eq (bp : List String) (defs : List Definition)
    (rels : List Relation) (igns : List (String → Bool)) :
    (derive_box bp defs rels igns).exports =
      (sortStrings (((enforce_box bp ⟨[], []⟩ defs rels igns).filter
        (fun v => v.dir == ViolationDirection.NonExportedReference)).map
          (fun v => v.rel.ns)).dedup).map litRegex := rfl

/-- C2. Re-running the engine with the Box the generator derived from the
empty-Box violations of the same corpus (same ignore list) produces zero
violations: every surviving candidate violation's referenced namespace made
it into the corresponding pattern list, whose literal pattern matches it. -/
theorem derive_box_yields_zero_violations (bp : List String)
    (defs : List Definition) (rels : List Relation)
    (igns : List (String → Bool)) :
    enforce_box bp (derive_box bp defs rels igns) defs rels igns = [] := by
  cases hP : parentDir bp with
  | none => rw [enforce_box, hP]
  | some box_dir =>
    rw [enforce_box, hP]
    refine List.append_eq_nil.mpr ⟨?_, ?_⟩ <;> rw [List.map_eq_nil_iff]
    · -- export direction
      rw [List.filter_eq_nil_iff]
      intro r hr hcon
      have hrm := List.mem_filter.mp hr
      rw [Bool.and_eq_true, Bool.not_eq_true'] at hcon
      have hmem : (⟨.NonExportedReference, r⟩ : BoxViolation) ∈
          enforce_box bp ⟨[], []⟩ defs rels igns :=
        (mem_enforce_box_export bp box_dir ⟨[], []⟩ defs rels igns r hP).mpr
          ⟨hrm.1, hrm.2, hcon.1, rfl⟩
      have hns : r.ns ∈ ((enforce_box bp ⟨[], []⟩ defs rels igns).filter
          (fun v => v.dir == ViolationDirection.NonExportedReference)).map
            (fun v => v.rel.ns) :=
        List.mem_map.mpr ⟨⟨.NonExportedReference, r⟩,
          List.mem_filter.mpr ⟨hmem, rfl⟩, rfl⟩
      have hany : (derive_box bp defs rels igns).exports.any
          (fun b => b.is_match r.ns) = true := by
        rw [derive_box_exports_eq]
        exact any_litRegex_of_mem _ _
          ((mem_sortStrings _ _).mpr (List.mem_dedup.mpr hns))
      rw [hcon.2] at hany
      cases hany
    · -- import direction
      rw [List.filter_eq_nil_iff]
      intro r hr hcon
      rw [Bool.and_eq_true, Bool.not_eq_true', Bool.or_eq_false_iff] at hcon
      have hmem : (⟨.NonImportedReference, r⟩ : BoxViolation) ∈
          enforce_box bp ⟨[], []⟩ defs rels igns :=
        (mem_enforce_box_import bp box_dir ⟨[], []⟩ defs rels igns r hP).mpr
          ⟨hr, hcon.1, rfl, hcon.2.2⟩
      have hns : r.ns ∈ ((enforce_box bp ⟨[], []⟩ defs rels igns).filter
          (fun v => v.dir == ViolationDirection.NonImportedReference)).map
            (fun v => v.rel.ns) :=
        List.mem_map.mpr ⟨⟨.NonImportedReference, r⟩,
          List.mem_filter.mpr ⟨hmem, rfl⟩, rfl⟩
      have hany : (derive_box bp defs rels igns).imports.any
          (fun b => b.is_match r.ns) = true := by
        rw [derive_box_imports_eq]
        exact any_litRegex_of_mem _ _
          ((mem_sortStrings _ _).mpr (List.mem_dedup.mpr hns))
      rw [hcon.2.1] at hany
      cases hany

end ConstantSandbox

namespace ConstantSandbox

/-- Deserializing the serialized sources of a regex list recovers them. -/
theorem strListOf_srcs (rs : List RegexM) :
    strListOf (rs.map (fun r => Yaml.str r.src)) =
      some (rs.map (fun r => r.src)) := by
  induction rs with
  | nil => rfl
  | cons a t ih => simp [strListOf, ih]

/-- Re-compiling the emitted sources of well-formed regexes recovers them. -/
theorem compileAll_sources (rs : List RegexM)
    (h : ∀ r ∈ rs, regex_new r.src = some r) :
    compileAll (rs.map (fun r => r.src)) = .compiled rs := by
  induction rs with
  | nil => rfl
  | cons a t ih =>
    have ha := h a (List.mem_cons_self a t)
    have ht := ih (fun r hr => h r (List.mem_cons_of_mem a hr))
    simp [compileAll, ha, ht]

/-- C7. Serialization re-emits the literal pattern strings, and re-parsing
the serialized document recovers the very same Box (hence import and export
patterns with equal — in particular match-equivalent on every probe —
matchers, in the same order), provided every pattern in the Box is one the
regex engine compiles from its own source, as every pattern built by `parse`
or the generator is. -/
theorem parse_to_yaml_roundtrip (b : RubyBox)
    (hi : ∀ r ∈ b.imports, regex_new r.src = some r)
    (he : ∀ r ∈ b.exports, regex_new r.src = some r) :
    parse (some (to_yaml b)) = .ok b := by
  have h1 := compileAll_sources b.imports hi
  have h2 := compileAll_sources b.exports he
  simp [parse, from_str, to_yaml, lookupKey, strSeq, strListOf_srcs, h1, h2]

/-- C7 witness: a Box with one literal import and one literal export. -/
theorem parse_to_yaml_roundtrip_witness :
    (∀ r ∈ [litRegex "A"], regex_new r.src = some r) ∧
      (∀ r ∈ [litRegex "B::C"], regex_new r.src = some r) ∧
      parse (some (to_yaml ⟨[litRegex "A"], [litRegex "B::C"]⟩)) =
        .ok ⟨[litRegex "A"], [litRegex "B::C"]⟩ :=
  ⟨fun r hr => by rw [List.mem_singleton.mp hr]; rfl,
    fun r hr => by rw [List.mem_singleton.mp hr]; rfl,
    parse_to_yaml_roundtrip ⟨[litRegex "A"], [litRegex "B::C"]⟩
      (fun r hr => by rw [List.mem_singleton.mp hr]; rfl)
      (fun r hr => by rw [List.mem_singleton.mp hr]; rfl)⟩

end ConstantSandbox

namespace ConstantSandbox

theorem bind_ok_iff {eps alpha beta : Type} (x : Except eps alpha)
    (f : alpha → Except eps beta) (b : beta) :
    (x >>= f) = .ok b ↔ ∃ a, x = .ok a ∧ f a = .ok b := by
  cases x <;> simp [Bind.bind, Except.bind]

theorem namespaceOf_ok (name : Node) (P : List String) (nm : String)
    (h : extract_name name = .ok nm) :
    namespaceOf name P = .ok (joinNS (P ++ [nm])) := by
  simp [namespaceOf, h, Bind.bind, Except.bind, pure, Except.pure]

theorem visitList_mem_sub (file P : List String) (children : List Node)
    (ds : List Definition) (rs : List Relation)
    (hv : visitList file P children = .ok (ds, rs)) (c : Node)
    (hc : c ∈ children) :
    ∃ dsc rsc, visit file P c = .ok (dsc, rsc) ∧ ∀ d ∈ dsc, d ∈ ds := by
  induction children generalizing ds rs with
  | nil => cases hc
  | cons a t ih =>
    simp only [visitList, bind_ok_iff] at hv
    obtain ⟨⟨da, ra⟩, ha, hv⟩ := hv
    simp only [bind_ok_iff] at hv
    obtain ⟨⟨dt, rt⟩, ht, hv⟩ := hv
    simp only [pure, Except.pure, Except.ok.injEq, Prod.mk.injEq] at hv
    obtain ⟨hds, hrs⟩ := hv
    rcases List.mem_cons.mp hc with rfl | hct
    · exact ⟨da, ra, ha, fun d hd => hds ▸ List.mem_append_left _ hd⟩
    · obtain ⟨dsc, rsc, hvc, hsub⟩ := ih dt rt ht hct
      exact ⟨dsc, rsc, hvc, fun d hd => hds ▸ List.mem_append_right _ (hsub d hd)⟩

theorem visit_within_def (file : List String) {n m : Node} {E : List String}
    (hW : Within n E m) :
    ∀ (P : List String) (ds : List Definition) (rs : List Relation),
      visit file P n = .ok (ds, rs) →
      ∀ (k e : Nat) (name : Node) (nm : String),
        defNodeInfo m = some (k, e, name) → extract_name name = .ok nm →
        (⟨joinNS (P ++ E ++ [nm]), file, k, e⟩ : Definition) ∈ ds := by
  induction hW with
  | refl n =>
    intro P ds rs hv k e name nm hinfo hname
    cases n with
    | module kw en name0 body =>
      simp only [defNodeInfo, Option.some.injEq, Prod.mk.injEq] at hinfo
      obtain ⟨rfl, rfl, rfl⟩ := hinfo
      simp only [visit, namespaceOf_ok name0 P nm hname, bind_ok_iff] at hv
      obtain ⟨ns0, hns, hv⟩ := hv
      obtain ⟨nm0, hnm, hv⟩ := hv
      obtain ⟨⟨db, rb⟩, hb, hv⟩ := hv
      simp only [pure, Except.pure, Except.ok.injEq, Prod.mk.injEq] at hv
      obtain ⟨hds, hrs⟩ := hv
      injection hns with hns0
      subst hns0
      rw [← hds]
      simp [List.append_nil]
    | cls kw en name0 sup body =>
      simp only [defNodeInfo, Option.some.injEq, Prod.mk.injEq] at hinfo
      obtain ⟨rfl, rfl, rfl⟩ := hinfo
      simp only [visit, namespaceOf_ok name0 P nm hname, bind_ok_iff] at hv
      obtain ⟨ns0, hns, hv⟩ := hv
      obtain ⟨nm0, hnm, hv⟩ := hv
      obtain ⟨⟨d1, r1⟩, h1, hv⟩ := hv
      obtain ⟨⟨d2, r2⟩, h2, hv⟩ := hv
      simp only [pure, Except.pure, Except.ok.injEq, Prod.mk.injEq] at hv
      obtain ⟨hds, hrs⟩ := hv
      injection hns with hns0
      subst hns0
      rw [← hds]
      simp [List.append_nil]
    | casgn sc nm0 np nsz v => cases hinfo
    | const sc nm0 el => cases hinfo
    | other cs => cases hinfo
  | @module_body b m E kw en name0 nm0 hname0 hW0 ih =>
    intro P ds rs hv k e name nm hinfo hname
    simp only [visit, namespaceOf_ok name0 P nm0 hname0, hname0, bind_ok_iff,
      visitOpt] at hv
    obtain ⟨ns1, hns, hv⟩ := hv
    obtain ⟨nm1, hnm, hv⟩ := hv
    obtain ⟨⟨db, rb⟩, hb, hv⟩ := hv
    simp only [pure, Except.pure, Except.ok.injEq, Prod.mk.injEq] at hv
    obtain ⟨hds, hrs⟩ := hv
    injection hnm with hnm0
    subst hnm0
    have hmem := ih (P ++ [nm0]) db rb hb k e name nm hinfo hname
    rw [← hds]
    refine List.mem_cons_of_mem _ ?_
    have harr : P ++ (nm0 :: E) ++ [nm] = P ++ [nm0] ++ E ++ [nm] := by
      simp [List.append_assoc]
    rw [harr]
    exact hmem
  | @cls_super s m E kw en name0 nm0 body hname0 hW0 ih =>
    intro P ds rs hv k e name nm hinfo hname
    simp only [visit, namespaceOf_ok name0 P nm0 hname0, hname0, bind_ok_iff,
      visitOpt] at hv
    obtain ⟨ns1, hns, hv⟩ := hv
    obtain ⟨nm1, hnm, hv⟩ := hv
    obtain ⟨⟨d1, r1⟩, h1, hv⟩ := hv
    obtain ⟨⟨d2, r2⟩, h2, hv⟩ := hv
    simp only [pure, Except.pure, Except.ok.injEq, Prod.mk.injEq] at hv
    obtain ⟨hds, hrs⟩ := hv
    injection hnm with hnm0
    subst hnm0
    have hmem := ih (P ++ [nm0]) d1 r1 h1 k e name nm hinfo hname
    rw [← hds]
    refine List.mem_cons_of_mem _ (List.mem_append_left _ ?_)
    have harr : P ++ (nm0 :: E) ++ [nm] = P ++ [nm0] ++ E ++ [nm] := by
      simp [List.append_assoc]
    rw [harr]
    exact hmem
  | @cls_body b m E kw en name0 nm0 sup hname0 hW0 ih =>
    intro P ds rs hv k e name nm hinfo hname
    simp only [visit, namespaceOf_ok name0 P nm0 hname0, hname0, bind_ok_iff,
      visitOpt] at hv
    obtain ⟨ns1, hns, hv⟩ := hv
    obtain ⟨nm1, hnm, hv⟩ := hv
    obtain ⟨⟨d1, r1⟩, h1, hv⟩ := hv
    obtain ⟨⟨d2, r2⟩, h2, hv⟩ := hv
    simp only [pure, Except.pure, Except.ok.injEq, Prod.mk.injEq] at hv
    obtain ⟨hds, hrs⟩ := hv
    injection hnm with hnm0
    subst hnm0
    have hmem := ih (P ++ [nm0]) d2 r2 h2 k e name nm hinfo hname
    rw [← hds]
    refine List.mem_cons_of_mem _ (List.mem_append_right _ ?_)
    have harr : P ++ (nm0 :: E) ++ [nm] = P ++ [nm0] ++ E ++ [nm] := by
      simp [List.append_assoc]
    rw [harr]
    exact hmem
  | @other_child c m E children hc hW0 ih =>
    intro P ds rs hv k e name nm hinfo hname
    simp only [visit] at hv
    obtain ⟨dsc, rsc, hvc, hsub⟩ := visitList_mem_sub file P children ds rs hv c hc
    exact hsub _ (ih P dsc rsc hvc k e name nm hinfo hname)

/-- C8. For a module/class definition reached through enclosing chain `E`
(length N), the emitted Definition's namespace is the `::`-join of the N
enclosing names in declaration order followed by its own name. -/
theorem extracted_definition_namespace (file : List String) (root m : Node)
    (E : List String) (rf : RubyFile) (k e : Nat) (name : Node) (nm : String)
    (hrun : ruby_file file (some root) = .ok rf)
    (hW : Within root E m)
    (hinfo : defNodeInfo m = some (k, e, name))
    (hname : extract_name name = .ok nm) :
    (⟨joinNS (E ++ [nm]), file, k, e⟩ : Definition) ∈ rf.definitions := by
  simp only [ruby_file, bind_ok_iff] at hrun
  obtain ⟨⟨ds, rs⟩, hv, hrun⟩ := hrun
  injection hrun with hrf
  have hmem := visit_within_def file hW [] ds rs hv k e name nm hinfo hname
  rw [← hrf]
  simpa using hmem

/-- C8 witness: `module A` containing `module B` emits `A::B`. -/
theorem extracted_definition_namespace_witness :
    ruby_file ["f.rb"] (some nestedTree) =
        .ok ⟨[⟨"A", ["f.rb"], 0, 10⟩, ⟨"A::B", ["f.rb"], 2, 8⟩], []⟩ ∧
      Within nestedTree ["A"] innerModule ∧
      defNodeInfo innerModule = some (2, 8, .const none "B" 1) ∧
      extract_name (.const none "B" 1) = .ok "B" ∧
      (⟨joinNS (["A"] ++ ["B"]), ["f.rb"], 2, 8⟩ : Definition) ∈
        (⟨[⟨"A", ["f.rb"], 0, 10⟩, ⟨"A::B", ["f.rb"], 2, 8⟩], []⟩ :
          RubyFile).definitions :=
  ⟨rfl,
    Within.module_body rfl
      (Within.other_child (List.mem_singleton.mpr rfl) (Within.refl innerModule)),
    rfl, rfl,
    extracted_definition_namespace ["f.rb"] nestedTree innerModule ["A"]
      ⟨[⟨"A", ["f.rb"], 0, 10⟩, ⟨"A::B", ["f.rb"], 2, 8⟩], []⟩ 2 8
      (.const none "B" 1) "B" rfl
      (Within.module_body rfl
        (Within.other_child (List.mem_singleton.mpr rfl)
          (Within.refl innerModule)))
      rfl rfl⟩

end ConstantSandbox

namespace ConstantSandbox

theorem corpusOf_ok_iff (files : List (List String × Option Node)) :
    (∃ c, corpusOf files = .ok c) ↔
      ∀ f ∈ files, ∃ rf, ruby_file f.1 f.2 = .ok rf := by
  induction files with
  | nil => simp [corpusOf]
  | cons f t ih =>
    constructor
    · rintro ⟨c, hc⟩ g hg
      simp only [corpusOf, bind_ok_iff] at hc
      obtain ⟨rf, hrf, hc⟩ := hc
      obtain ⟨⟨ds, rs⟩, hrest, _⟩ := hc
      rcases List.mem_cons.mp hg with rfl | hgt
      · exact ⟨rf, hrf⟩
      · exact (ih.mp ⟨(ds, rs), hrest⟩) g hgt
    · intro h
      obtain ⟨rf, hrf⟩ := h f (List.mem_cons_self f t)
      obtain ⟨c, hc⟩ := ih.mpr (fun g hg => h g (List.mem_cons_of_mem f hg))
      obtain ⟨ds, rs⟩ := c
      refine ⟨(rf.definitions ++ ds, rf.relations ++ rs), ?_⟩
      simp only [corpusOf, bind_ok_iff]
      exact ⟨rf, hrf, (ds, rs), hc, rfl⟩

theorem perm_append_swap {α : Type} (a b c : List α) :
    (a ++ (b ++ c)).Perm (b ++ (a ++ c)) := by
  rw [← List.append_assoc a b c, ← List.append_assoc b a c]
  exact List.perm_append_comm.append_right c

/-- C9. Extraction is deterministic up to scheduling: the collector receives
the per-file results in an arbitrary order, and any two orders of the same
file set yield permuted (same multiset) definition and relation lists. -/
theorem extraction_order_independent
    (files1 files2 : List (List String × Option Node))
    (c1 c2 : List Definition × List Relation) (hperm : files1.Perm files2)
    (h1 : corpusOf files1 = .ok c1) (h2 : corpusOf files2 = .ok c2) :
    c1.1.Perm c2.1 ∧ c1.2.Perm c2.2 := by
  induction hperm generalizing c1 c2 with
  | nil =>
    simp only [corpusOf, Except.ok.injEq] at h1 h2
    rw [← h1, ← h2]
    exact ⟨List.Perm.refl _, List.Perm.refl _⟩
  | cons x hl ih =>
    simp only [corpusOf, bind_ok_iff] at h1 h2
    obtain ⟨rf1, hrf1, ⟨d1, hd1, h1⟩⟩ := h1
    obtain ⟨rf2, hrf2, ⟨d2, hd2, h2⟩⟩ := h2
    rw [hrf1] at hrf2
    injection hrf2 with hrf
    subst hrf
    obtain ⟨ds1, rs1⟩ := d1
    obtain ⟨ds2, rs2⟩ := d2
    injection h1 with h1
    injection h2 with h2
    have hih := ih (ds1, rs1) (ds2, rs2) hd1 hd2
    rw [← h1, ← h2]
    exact ⟨hih.1.append_left rf1.definitions, hih.2.append_left rf1.relations⟩
  | swap x y l =>
    simp only [corpusOf, bind_ok_iff] at h1 h2
    obtain ⟨ry, hry, ⟨dxl, ⟨rx, hrx, ⟨dl, hdl, hxa⟩⟩, h1⟩⟩ := h1
    obtain ⟨rx2, hrx2, ⟨dyl, ⟨ry2, hry2, ⟨dl2, hdl2, hya⟩⟩, h2⟩⟩ := h2
    rw [hrx] at hrx2
    injection hrx2 with hx
    subst hx
    rw [hry] at hry2
    injection hry2 with hy
    subst hy
    rw [hdl] at hdl2
    injection hdl2 with hd
    subst hd
    obtain ⟨dls, rls⟩ := dl
    injection hxa with hxa
    injection hya with hya
    rw [← hxa] at h1
    rw [← hya] at h2
    injection h1 with h1
    injection h2 with h2
    rw [← h1, ← h2]
    exact ⟨perm_append_swap ry.definitions rx.definitions dls,
      perm_append_swap ry.relations rx.relations rls⟩
  | @trans l1 l2 l3 h12 h23 ih1 ih2 =>
    have hall : ∀ f ∈ l2, ∃ rf, ruby_file f.1 f.2 = .ok rf := fun f hf =>
      (corpusOf_ok_iff l1).mp ⟨c1, h1⟩ f (h12.mem_iff.mpr hf)
    obtain ⟨cm, hcm⟩ := (corpusOf_ok_iff l2).mpr hall
    obtain ⟨p1, q1⟩ := ih1 c1 cm h1 hcm
    obtain ⟨p2, q2⟩ := ih2 cm c2 hcm h2
    exact ⟨p1.trans p2, q1.trans q2⟩

/-- C9 witness: two files processed in both orders yield permuted corpora. -/
theorem extraction_order_independent_witness :
    corpusOf [fileA, fileB] =
        .ok ([⟨"A", ["a.rb"], 0, 1⟩, ⟨"B", ["b.rb"], 0, 1⟩], []) ∧
      corpusOf [fileB, fileA] =
        .ok ([⟨"B", ["b.rb"], 0, 1⟩, ⟨"A", ["a.rb"], 0, 1⟩], []) ∧
      ([(⟨"A", ["a.rb"], 0, 1⟩ : Definition), ⟨"B", ["b.rb"], 0, 1⟩]).Perm
          [⟨"B", ["b.rb"], 0, 1⟩, ⟨"A", ["a.rb"], 0, 1⟩] ∧
      ([] : List Relation).Perm [] :=
  ⟨rfl, rfl,
    (extraction_order_independent [fileA, fileB] [fileB, fileA]
      ([⟨"A", ["a.rb"], 0, 1⟩, ⟨"B", ["b.rb"], 0, 1⟩], [])
      ([⟨"B", ["b.rb"], 0, 1⟩, ⟨"A", ["a.rb"], 0, 1⟩], [])
      (List.Perm.swap fileB fileA []) rfl rfl).1,
    (extraction_order_independent [fileA, fileB] [fileB, fileA]
      ([⟨"A", ["a.rb"], 0, 1⟩, ⟨"B", ["b.rb"], 0, 1⟩], [])
      ([⟨"B", ["b.rb"], 0, 1⟩, ⟨"A", ["a.rb"], 0, 1⟩], [])
      (List.Perm.swap fileB fileA []) rfl rfl).2⟩

end ConstantSandbox
